import Mathlib

/-!
Shallow embedding of `tm1637.py` (MicroPython TM1637 7-segment display
driver) and proofs of the specification claims about it.

Characters are modelled by their ordinal values (`Nat`), strings by lists
of ordinals, and byte strings by lists of `Nat`.  Python exceptions are
modelled with `Except Err` (an operation that raises before mutating any
state is modelled as returning the error with the state/trace untouched).
-/

namespace TM1637

/-- Constant opcodes and flags from the top of tm1637.py. -/
def TM1637_CMD1 : Nat := 64

/-- Address command base, 0xC0. -/
def TM1637_CMD2 : Nat := 192

/-- Display control command base, 0x80. -/
def TM1637_CMD3 : Nat := 128

/-- Display-on flag, 0x08. -/
def TM1637_DSP_ON : Nat := 8

/-- Decimal point / colon bit, 0x80. -/
def TM1637_MSB : Nat := 128

/-- The 39-entry segment table `_SEGMENTS` from tm1637.py:
digits 0-9 (indices 0-9), letters a-z (10-35), blank (36), dash (37),
star/degrees (38). -/
def SEGMENTS : List Nat :=
  [0x3F, 0x06, 0x5B, 0x4F, 0x66, 0x6D, 0x7D, 0x07, 0x7F, 0x6F,
   0x77, 0x7C, 0x39, 0x5E, 0x79, 0x71, 0x3D, 0x76, 0x06, 0x1E,
   0x76, 0x38, 0x55, 0x54, 0x3F, 0x73, 0x67, 0x50, 0x6D, 0x78,
   0x3E, 0x1C, 0x2A, 0x76, 0x6E, 0x5B, 0x00, 0x40, 0x63]

/-- Table lookup `_SEGMENTS[i]` (every index used by the code is in range,
so the default value is never reached). -/
def seg (i : Nat) : Nat := SEGMENTS.getD i 0

/-- Errors raised by the driver.  `charOutOfRange o` models the
`ValueError` whose message shows both the ordinal `o` and the character
`chr o` (both are determined by `o`); the other two model the
`ValueError`s of `write` and `brightness`/`__init__`. -/
inductive Err where
  | charOutOfRange (o : Nat)
  | posOutOfRange
  | brightnessOutOfRange
  deriving DecidableEq

/-- Embedding of `TM1637.encode_char` on the ordinal of the character:
the chain of range tests from tm1637.py lines 146-161. -/
def encode_char (o : Nat) : Except Err Nat :=
  if o = 32 then .ok (seg 36)
  else if o = 42 then .ok (seg 38)
  else if o = 45 then .ok (seg 37)
  else if 65 ≤ o ∧ o ≤ 90 then .ok (seg (o - 55))
  else if 97 ≤ o ∧ o ≤ 122 then .ok (seg (o - 87))
  else if 48 ≤ o ∧ o ≤ 57 then .ok (seg (o - 48))
  else .error (.charOutOfRange o)

/-- Embedding of `TM1637.encode_string`: encode each character in order,
propagating the first encoding error (the Python loop raises at the first
bad character). -/
def encode_string : List Nat → Except Err (List Nat)
  | [] => .ok []
  | c :: cs =>
    match encode_char c with
    | .error e => .error e
    | .ok s =>
      match encode_string cs with
      | .error e => .error e
      | .ok rest => .ok (s :: rest)

/-- OR the MSB flag (0x80) into the element at index `i`
(models `segments[i] |= TM1637_MSB`; out-of-range indices never occur in
the embedded code paths). -/
def orAt : List Nat → Nat → List Nat
  | [], _ => []
  | x :: xs, 0 => (x ||| TM1637_MSB) :: xs
  | x :: xs, i + 1 => x :: orAt xs i

/-- Loop body of `TM1637Decimal.encode_string`: `acc` is the prefix of the
output written so far (its length is the Python index `j`).  A dot with
`j > 0` ORs 0x80 into the previous output byte and consumes no slot;
every other character goes through `encode_char`. -/
def encodeDecAux (acc : List Nat) : List Nat → Except Err (List Nat)
  | [] => .ok acc
  | c :: cs =>
    if c = 46 ∧ 0 < acc.length then
      encodeDecAux (orAt acc (acc.length - 1)) cs
    else
      match encode_char c with
      | .error e => .error e
      | .ok s => encodeDecAux (acc ++ [s]) cs

/-- Embedding of `TM1637Decimal.encode_string` (tm1637.py lines 220-234). -/
def encode_string_dec (s : List Nat) : Except Err (List Nat) :=
  encodeDecAux [] s

/-- GPIO-level events: setting the data line, setting the clock line, and
the fixed `sleep_us(TM1637_DELAY)` timing-unit delay.  The pin protocol
has no read events at all (the driver never reads the data line). -/
inductive Ev where
  | dio (v : Nat)
  | clk (v : Nat)
  | sleep
  deriving DecidableEq

/-- Embedding of `TM1637._start`. -/
def startTrace : List Ev := [.dio 0, .sleep, .clk 0, .sleep]

/-- Embedding of `TM1637._stop`. -/
def stopTrace : List Ev := [.dio 0, .sleep, .clk 1, .sleep, .dio 1]

/-- One iteration of the bit loop in `TM1637._write_byte`:
`self.dio((b >> i) & 1)`, delay, clock high, delay, clock low, delay. -/
def bitTrace (b i : Nat) : List Ev :=
  [.dio ((b >>> i) &&& 1), .sleep, .clk 1, .sleep, .clk 0, .sleep]

/-- The `for i in range(8)` loop of `_write_byte`, over the list of bit
indices. -/
def loopBits (b : Nat) : List Nat → List Ev
  | [] => []
  | i :: is => bitTrace b i ++ loopBits b is

/-- Embedding of `TM1637._write_byte` as its GPIO event trace: the 8 data
bits LSB first, then the extra acknowledgment clock pulse
(low, wait, high, wait, low, wait).  The acknowledgment is never read. -/
def writeByteTrace (b : Nat) : List Ev :=
  loopBits b (List.range 8) ++
    [.clk 0, .sleep, .clk 1, .sleep, .clk 0, .sleep]

/-- Embedding of `TM1637._write_data_cmd`. -/
def dataCmdTrace : List Ev :=
  startTrace ++ writeByteTrace TM1637_CMD1 ++ stopTrace

/-- Embedding of `TM1637._write_dsp_ctrl` at stored brightness `br`. -/
def dspCtrlTrace (br : Nat) : List Ev :=
  startTrace ++ writeByteTrace (TM1637_CMD3 ||| TM1637_DSP_ON ||| br) ++ stopTrace

/-- The `for seg in segments` loop of `TM1637.write`. -/
def loopSegs : List Nat → List Ev
  | [] => []
  | s :: ss => writeByteTrace s ++ loopSegs ss

/-- Embedding of `TM1637.write(segments, pos)` at the GPIO event level:
the position check comes first, so an out-of-range position raises with
an empty event trace; otherwise the full frame is transmitted. -/
def write (d br : Nat) (segments : List Nat) (pos : Int) :
    List Ev × Option Err :=
  if 0 ≤ pos ∧ pos < (d : Int) then
    (dataCmdTrace ++ startTrace ++ writeByteTrace (TM1637_CMD2 ||| pos.toNat) ++
       loopSegs segments ++ stopTrace ++ dspCtrlTrace br, none)
  else
    ([], some .posOutOfRange)

/-- Embedding of `TM1637.write(segments, pos)` at the byte level: the
sequence of bytes clocked onto the bus.  No check of `segments` length is
performed, mirroring the source. -/
def writeFrame (d br : Nat) (segments : List Nat) (pos : Int) :
    Except Err (List Nat) :=
  if 0 ≤ pos ∧ pos < (d : Int) then
    .ok (TM1637_CMD1 :: (TM1637_CMD2 ||| pos.toNat) ::
      (segments ++ [TM1637_CMD3 ||| TM1637_DSP_ON ||| br]))
  else
    .error .posOutOfRange

/-- A single call to `TM1637.write` as seen by the rendering operations:
the position validation of tm1637.py line 122, returning the
(segments, position) pair actually transmitted. -/
def callWrite (d : Nat) (segments : List Nat) (pos : Int) :
    Except Err (List Nat × Int) :=
  if 0 ≤ pos ∧ pos < (d : Int) then .ok (segments, pos)
  else .error .posOutOfRange

/-- Device state relevant to `TM1637.brightness`: the stored brightness
and the digit count fixed at construction. -/
structure TMState where
  brightness : Int
  digits : Nat
  deriving DecidableEq

/-- Embedding of the setter path of `TM1637.brightness(val)`: the range
check raises before the assignment, so on error the state is returned
unchanged; on success the stored brightness is updated (the subsequent
command re-issue is modelled by `dataCmdTrace`/`dspCtrlTrace`). -/
def brightness_set (s : TMState) (val : Int) : TMState × Option Err :=
  if 0 ≤ val ∧ val ≤ 7 then ({ s with brightness := val }, none)
  else (s, some .brightnessOutOfRange)

/-- Decimal digit expansion with explicit fuel (the fuel is always at
least the value, so the fallback base case is never hit on the calls the
driver makes); produces the ordinals of the decimal digits, most
significant first, as Python `format(n, "d")` does for nonnegative `n`. -/
def natDigitsGo : Nat → Nat → List Nat
  | 0, n => [48 + n % 10]
  | fuel + 1, n =>
    if n < 10 then [48 + n]
    else natDigitsGo fuel (n / 10) ++ [48 + n % 10]

/-- Ordinals of the decimal representation of `n`. -/
def natDigits (n : Nat) : List Nat := natDigitsGo n n

/-- Ordinals of the decimal representation of an integer, with a leading
minus sign for negative values, as Python `"{:d}".format(i)`. -/
def intRepr (i : Int) : List Nat :=
  if i < 0 then 45 :: natDigits (-i).toNat else natDigits i.toNat

/-- Left-pad with the fill ordinal to width `w`, as Python
`"{0:F>Wd}"` alignment does (no truncation when already wider). -/
def padLeft (w fill : Nat) (cs : List Nat) : List Nat :=
  List.replicate (w - cs.length) fill ++ cs

/-- Ordinal of one lowercase hex digit, as Python `"{:x}"` produces. -/
def hexChar (k : Nat) : Nat := if k < 10 then 48 + k else 87 + k

/-- Exception propagation: run the continuation on success, propagate
the raised error otherwise (Python control flow of sequential statements
inside the driver methods). -/
def ebind {α β : Type} (x : Except Err α) (f : α → Except Err β) :
    Except Err β :=
  match x with
  | .error e => .error e
  | .ok a => f a

/-- Hex digit expansion with explicit fuel, most significant first. -/
def natHexDigitsGo : Nat → Nat → List Nat
  | 0, n => [hexChar (n % 16)]
  | fuel + 1, n =>
    if n < 16 then [hexChar n]
    else natHexDigitsGo fuel (n / 16) ++ [hexChar (n % 16)]

/-- Ordinals of the lowercase hexadecimal representation of `n`. -/
def natHexDigits (n : Nat) : List Nat := natHexDigitsGo n n

/-- Embedding of `TM1637.hex(val)`: the mask is `(1 << 8*digits) - 1`, and
Python `val & ((1 << k) - 1)` equals `val % 2^k` (mathematically, for
every integer `val`), embedded here with `Int.emod`; the masked value is
then zero-padded to width `digits` (never truncated) and written at
position 0. -/
def hexOp (d : Nat) (val : Int) : Except Err (List (List Nat × Int)) :=
  ebind (encode_string
      (padLeft d 48 (natHexDigits ((val.emod ((2 : Int) ^ (8 * d))).toNat))))
    fun segs => ebind (callWrite d segs 0) fun c => .ok [c]

/-- Embedding of `TM1637.show(string, colon)`: truncate to `digits`
characters, encode, optionally OR the colon bit into the second byte,
write at position 0. -/
def show_op (d : Nat) (s : List Nat) (colon : Bool) :
    Except Err (List (List Nat × Int)) :=
  ebind (encode_string (s.take d)) fun segs0 =>
    ebind (callWrite d
        (if 1 < segs0.length ∧ colon then orAt segs0 1 else segs0) 0)
      fun c => .ok [c]

/-- Embedding of `TM1637.temperature(num)` (tm1637.py lines 189-197), for
digit counts where the Python exponents `digits-3` and `digits-2` are
nonnegative: the lo/hi/numeric branch followed by the degrees-C write of
`[_SEGMENTS[38], _SEGMENTS[12]]` at position `digits - 2`.  The result is
the list of `write` calls performed. -/
def temperature (d : Nat) (num : Int) : Except Err (List (List Nat × Int)) :=
  ebind (if num < -((10 : Int) ^ (d - 3)) + 1 then
      show_op d [108, 111] false
    else if (10 : Int) ^ (d - 2) - 1 < num then
      show_op d [104, 105] false
    else
      ebind (encode_string (padLeft (d - 2) 32 (intRepr num))) fun segs =>
        ebind (callWrite d segs 0) fun c => .ok [c])
    fun cs =>
      ebind (callWrite d [seg 38, seg 12] ((d : Int) - 2)) fun c2 =>
        .ok (cs ++ [c2])

/-- Embedding of `TM1637.hour_minute(hour, minute, colon)`: clamp both
values to [-9, 99], zero-pad each to 2 characters, encode the 4-character
concatenation, optionally OR the colon bit into the second byte, write at
position 0. -/
def hour_minute (d : Nat) (hour minute : Int) (colon : Bool) :
    Except Err (List (List Nat × Int)) :=
  ebind (encode_string
      (padLeft 2 48 (intRepr (max (-9) (min hour 99))) ++
        padLeft 2 48 (intRepr (max (-9) (min minute 99)))))
    fun segs0 =>
      ebind (callWrite d (if colon then orAt segs0 1 else segs0) 0)
        fun c => .ok [c]

/-- The successive windows written by `TM1637.scroll`: the encoded
segments padded with `digits` blanks on each side, and for each
`i < len(segments) + digits + 1` the slice `data[i : digits + i]`. -/
def scrollWindows (d : Nat) (segments : List Nat) : List (List Nat) :=
  let data := List.replicate d 0 ++ segments ++ List.replicate d 0
  (List.range (segments.length + d + 1)).map fun i => (data.drop i).take d

/-- The successive `write` calls of the scroll loop (each at position 0;
a failing write would abort the loop, as the Python exception would). -/
def callAll (d : Nat) : List (List Nat) → Except Err (List (List Nat × Int))
  | [] => .ok []
  | w :: ws =>
    ebind (callWrite d w 0) fun c =>
      ebind (callAll d ws) fun cs => .ok (c :: cs)

/-- Embedding of `TM1637.scroll(string, delay)` on the string path:
encode, then write each sliding window (the `sleep_ms` between writes has
no effect on the written data and is not modelled). -/
def scroll (d : Nat) (s : List Nat) : Except Err (List (List Nat × Int)) :=
  ebind (encode_string s) fun segs => callAll d (scrollWindows d segs)

/-! Helper lemmas. -/

/-- The fuel of `natDigitsGo` is irrelevant once it dominates the value. -/
theorem natDigitsGo_irrel (n : Nat) : ∀ f1 f2 : Nat, n ≤ f1 → n ≤ f2 →
    natDigitsGo f1 n = natDigitsGo f2 n := by
  induction n using Nat.strong_induction_on with
  | _ n ih =>
    intro f1 f2 h1 h2
    match f1, f2 with
    | 0, 0 => rfl
    | 0, b + 1 =>
      interval_cases n
      simp [natDigitsGo]
    | a + 1, 0 =>
      interval_cases n
      simp [natDigitsGo]
    | a + 1, b + 1 =>
      by_cases hn : n < 10
      · simp [natDigitsGo, hn]
      · have hd : n / 10 < n := Nat.div_lt_self (by omega) (by omega)
        simp only [natDigitsGo, if_neg hn]
        rw [ih (n / 10) hd a b (by omega) (by omega)]

/-- Evaluation of `natDigits` on a single-digit value. -/
theorem natDigits_small {n : Nat} (h : n < 10) : natDigits n = [48 + n] := by
  match n, h with
  | 0, _ => simp [natDigits, natDigitsGo]
  | m + 1, h => simp [natDigits, natDigitsGo, Nat.lt_of_succ_lt_succ h, h]

/-- Unfolding step of `natDigits` on a multi-digit value. -/
theorem natDigits_step {n : Nat} (h : 10 ≤ n) :
    natDigits n = natDigits (n / 10) ++ [48 + n % 10] := by
  obtain ⟨k, rfl⟩ : ∃ k, n = k + 1 := ⟨n - 1, by omega⟩
  have hd : (k + 1) / 10 < k + 1 := Nat.div_lt_self (by omega) (by omega)
  simp only [natDigits, natDigitsGo, if_neg (by omega : ¬(k + 1 < 10))]
  rw [natDigitsGo_irrel ((k + 1) / 10) k ((k + 1) / 10) (by omega) (le_refl _)]

/-- The fuel of `natHexDigitsGo` is irrelevant once it dominates the
value. -/
theorem natHexDigitsGo_irrel (n : Nat) : ∀ f1 f2 : Nat, n ≤ f1 → n ≤ f2 →
    natHexDigitsGo f1 n = natHexDigitsGo f2 n := by
  induction n using Nat.strong_induction_on with
  | _ n ih =>
    intro f1 f2 h1 h2
    match f1, f2 with
    | 0, 0 => rfl
    | 0, b + 1 =>
      interval_cases n
      simp [natHexDigitsGo]
    | a + 1, 0 =>
      interval_cases n
      simp [natHexDigitsGo]
    | a + 1, b + 1 =>
      by_cases hn : n < 16
      · simp [natHexDigitsGo, hn]
      · have hd : n / 16 < n := Nat.div_lt_self (by omega) (by omega)
        simp only [natHexDigitsGo, if_neg hn]
        rw [ih (n / 16) hd a b (by omega) (by omega)]

/-- Evaluation of `natHexDigits` on a single hex digit. -/
theorem natHexDigits_small {n : Nat} (h : n < 16) :
    natHexDigits n = [hexChar n] := by
  match n, h with
  | 0, _ => simp [natHexDigits, natHexDigitsGo]
  | m + 1, h => simp [natHexDigits, natHexDigitsGo, Nat.lt_of_succ_lt_succ h, h]

/-- Unfolding step of `natHexDigits` on a multi-hex-digit value. -/
theorem natHexDigits_step {n : Nat} (h : 16 ≤ n) :
    natHexDigits n = natHexDigits (n / 16) ++ [hexChar (n % 16)] := by
  obtain ⟨k, rfl⟩ : ∃ k, n = k + 1 := ⟨n - 1, by omega⟩
  have hd : (k + 1) / 16 < k + 1 := Nat.div_lt_self (by omega) (by omega)
  simp only [natHexDigits, natHexDigitsGo, if_neg (by omega : ¬(k + 1 < 16))]
  rw [natHexDigitsGo_irrel ((k + 1) / 16) k ((k + 1) / 16) (by omega) (le_refl _)]

/-- Successful plain encoding preserves the length. -/
theorem encode_string_length : ∀ (s out : List Nat),
    encode_string s = .ok out → out.length = s.length := by
  intro s
  induction s with
  | nil =>
    intro out h
    cases h
    rfl
  | cons c cs ih =>
    intro out h
    unfold encode_string at h
    cases h1 : encode_char c <;> rw [h1] at h
    · cases h
    · cases h2 : encode_string cs <;> rw [h2] at h
      · cases h
      · cases h
        simp [ih _ h2]

/-- `orAt` preserves the length. -/
theorem orAt_length : ∀ (l : List Nat) (i : Nat), (orAt l i).length = l.length := by
  intro l
  induction l with
  | nil => intro i; rfl
  | cons x xs ih =>
    intro i
    match i with
    | 0 => rfl
    | j + 1 => simp [orAt, ih]

/-- `orAt` at two indices commutes. -/
theorem orAt_orAt : ∀ (l : List Nat) (i j : Nat),
    orAt (orAt l i) j = orAt (orAt l j) i := by
  intro l
  induction l with
  | nil => intro i j; rfl
  | cons x xs ih =>
    intro i j
    match i, j with
    | 0, 0 => rfl
    | 0, j + 1 => rfl
    | i + 1, 0 => rfl
    | i + 1, j + 1 => simp [orAt, ih]

/-- `orAt` below the length commutes with appending an element. -/
theorem orAt_append : ∀ (l : List Nat) (i : Nat) (x : Nat), i < l.length →
    orAt (l ++ [x]) i = orAt l i ++ [x] := by
  intro l
  induction l with
  | nil => intro i x h; simp at h
  | cons y ys ih =>
    intro i x h
    match i with
    | 0 => rfl
    | j + 1 =>
      simp only [List.cons_append, orAt, List.cons.injEq, true_and]
      exact ih j x (by simpa using h)

/-- Unfolding equation of the decimal-variant loop on a cons cell. -/
theorem encodeDecAux_cons (acc : List Nat) (c : Nat) (cs : List Nat) :
    encodeDecAux acc (c :: cs) =
      if c = 46 ∧ 0 < acc.length then
        encodeDecAux (orAt acc (acc.length - 1)) cs
      else
        match encode_char c with
        | .error e => .error e
        | .ok s => encodeDecAux (acc ++ [s]) cs := rfl

/-- Length bookkeeping of the decimal-variant loop: on success, the
output length plus the number of dots equals the carried prefix length
plus the input length (a dot consumes no output slot). -/
theorem encodeDecAux_length : ∀ (s acc out : List Nat),
    encodeDecAux acc s = .ok out →
    out.length + s.count 46 = acc.length + s.length := by
  intro s
  induction s with
  | nil =>
    intro acc out h
    cases h
    simp
  | cons c cs ih =>
    intro acc out h
    unfold encodeDecAux at h
    by_cases hc : c = 46 ∧ 0 < acc.length
    · rw [if_pos hc] at h
      have h2 := ih _ out h
      rw [orAt_length] at h2
      obtain ⟨hc1, -⟩ := hc
      subst hc1
      rw [List.count_cons_self]
      simp only [List.length_cons]
      omega
    · rw [if_neg hc] at h
      cases h1 : encode_char c <;> rw [h1] at h
      · cases h
      · have hcne : c ≠ 46 := by
          intro he
          subst he
          rw [show encode_char 46 = .error (.charOutOfRange 46) from rfl] at h1
          cases h1
        have h2 := ih _ out h
        simp only [List.length_append, List.length_cons, List.length_nil] at h2
        rw [List.count_cons_of_ne (by omega)]
        simp only [List.length_cons]
        omega

/-- The decimal-variant loop processes an appended suffix after the
prefix, with errors propagating. -/
theorem encodeDecAux_append : ∀ (u acc w : List Nat),
    encodeDecAux acc (u ++ w) =
      match encodeDecAux acc u with
      | .error e => .error e
      | .ok acc2 => encodeDecAux acc2 w := by
  intro u
  induction u with
  | nil => intro acc w; rfl
  | cons c cs ih =>
    intro acc w
    rw [List.cons_append, encodeDecAux_cons, encodeDecAux_cons]
    by_cases hc : c = 46 ∧ 0 < acc.length
    · rw [if_pos hc, if_pos hc, ih]
    · rw [if_neg hc, if_neg hc]
      cases h1 : encode_char c with
      | error e => rfl
      | ok s =>
        show encodeDecAux (acc ++ [s]) (cs ++ w) = _
        rw [ih]

/-- Applying `orAt` at an in-range index to the carried prefix commutes
with the rest of the decimal-variant loop (OR is idempotent, so a later
dot hitting the same byte is unaffected). -/
theorem encodeDecAux_orAt : ∀ (v acc : List Nat) (j : Nat), j < acc.length →
    encodeDecAux (orAt acc j) v =
      (encodeDecAux acc v).map (fun out => orAt out j) := by
  intro v
  induction v with
  | nil => intro acc j hj; rfl
  | cons c cs ih =>
    intro acc j hj
    have hl : (orAt acc j).length = acc.length := orAt_length acc j
    rw [encodeDecAux_cons, encodeDecAux_cons]
    by_cases hc : c = 46 ∧ 0 < acc.length
    · rw [if_pos (by rw [hl]; exact hc), if_pos hc, hl, orAt_orAt]
      exact ih (orAt acc (acc.length - 1)) j (by rw [orAt_length]; omega)
    · rw [if_neg (by rw [hl]; exact hc), if_neg hc]
      cases h1 : encode_char c with
      | error e => rfl
      | ok s =>
        show encodeDecAux (orAt acc j ++ [s]) cs = _
        rw [← orAt_append acc j s hj]
        exact ih (acc ++ [s]) j (by simp only [List.length_append]; omega)

/-- Unfolding of `ebind` on a success value. -/
theorem ebind_ok {α β : Type} (a : α) (f : α → Except Err β) :
    ebind (.ok a) f = f a := rfl

/-- A successful `ebind` comes from a successful first step. -/
theorem ebind_eq_ok {α β : Type} {x : Except Err α}
    {f : α → Except Err β} {b : β} (h : ebind x f = .ok b) :
    ∃ a, x = .ok a ∧ f a = .ok b := by
  cases x with
  | error e => simp [ebind] at h
  | ok a => exact ⟨a, rfl, h⟩

/-- A write at position 0 succeeds whenever the display has at least one
digit. -/
theorem callWrite_ok (d : Nat) (w : List Nat) (hd : 1 ≤ d) :
    callWrite d w 0 = .ok (w, 0) := by
  unfold callWrite
  rw [if_pos ⟨by omega, by omega⟩]

/-- With at least one digit, the scroll loop writes every window at
position 0 and succeeds. -/
theorem callAll_ok (d : Nat) (hd : 1 ≤ d) : ∀ ws : List (List Nat),
    callAll d ws = .ok (ws.map (fun w => (w, (0 : Int)))) := by
  intro ws
  induction ws with
  | nil => rfl
  | cons w ws ih =>
    unfold callAll
    rw [callWrite_ok d w hd, ih]
    rfl

/-- The characters `encode_char` accepts: space, star, dash, letters of
either case, and digits. -/
def GoodChar (c : Nat) : Prop :=
  c = 32 ∨ c = 42 ∨ c = 45 ∨ (65 ≤ c ∧ c ≤ 90) ∨ (97 ≤ c ∧ c ≤ 122) ∨
    (48 ≤ c ∧ c ≤ 57)

/-- Recognized characters encode successfully. -/
theorem encode_char_ok_of_good (c : Nat) (h : GoodChar c) :
    ∃ y, encode_char c = .ok y := by
  rcases h with rfl | rfl | rfl | h | h | h
  · exact ⟨seg 36, rfl⟩
  · exact ⟨seg 38, rfl⟩
  · exact ⟨seg 37, rfl⟩
  · exact ⟨seg (c - 55), by
      unfold encode_char
      rw [if_neg (by omega), if_neg (by omega), if_neg (by omega),
        if_pos h]⟩
  · exact ⟨seg (c - 87), by
      unfold encode_char
      rw [if_neg (by omega), if_neg (by omega), if_neg (by omega),
        if_neg (by omega), if_pos h]⟩
  · exact ⟨seg (c - 48), by
      unfold encode_char
      rw [if_neg (by omega), if_neg (by omega), if_neg (by omega),
        if_neg (by omega), if_neg (by omega), if_pos h]⟩

/-- A string of recognized characters encodes successfully. -/
theorem encode_string_ok_of_good : ∀ s : List Nat,
    (∀ c ∈ s, GoodChar c) → ∃ out, encode_string s = .ok out := by
  intro s
  induction s with
  | nil => intro h; exact ⟨[], rfl⟩
  | cons c cs ih =>
    intro h
    obtain ⟨y, hy⟩ := encode_char_ok_of_good c (h c (by simp))
    obtain ⟨out, hout⟩ := ih (fun x hx => h x (by simp [hx]))
    exact ⟨y :: out, by unfold encode_string; rw [hy, hout]⟩

/-- Every character produced by the decimal digit expansion is a digit
character. -/
theorem natDigitsGo_good : ∀ (fuel n c : Nat), c ∈ natDigitsGo fuel n →
    48 ≤ c ∧ c ≤ 57 := by
  intro fuel
  induction fuel with
  | zero =>
    intro n c hc
    simp only [natDigitsGo, List.mem_singleton] at hc
    have : n % 10 < 10 := Nat.mod_lt _ (by omega)
    omega
  | succ f ih =>
    intro n c hc
    unfold natDigitsGo at hc
    by_cases hn : n < 10
    · rw [if_pos hn] at hc
      simp only [List.mem_singleton] at hc
      omega
    · rw [if_neg hn] at hc
      rcases List.mem_append.mp hc with hc | hc
      · exact ih _ c hc
      · simp only [List.mem_singleton] at hc
        have : n % 10 < 10 := Nat.mod_lt _ (by omega)
        omega

/-- Every character of `natDigits` is a digit character. -/
theorem natDigits_good (n c : Nat) (hc : c ∈ natDigits n) :
    48 ≤ c ∧ c ≤ 57 :=
  natDigitsGo_good n n c hc

/-- Every character of the decimal representation of an integer is
recognized by `encode_char`. -/
theorem intRepr_good (i : Int) (c : Nat) (hc : c ∈ intRepr i) :
    GoodChar c := by
  unfold intRepr at hc
  by_cases hi : i < 0
  · rw [if_pos hi] at hc
    rcases List.mem_cons.mp hc with rfl | hc
    · unfold GoodChar
      omega
    · have := natDigits_good _ _ hc
      unfold GoodChar
      omega
  · rw [if_neg hi] at hc
    have := natDigits_good _ _ hc
    unfold GoodChar
    omega

/-- Padding with a recognized fill keeps every character recognized. -/
theorem padLeft_good (w fill : Nat) (cs : List Nat) (hf : GoodChar fill)
    (h : ∀ c ∈ cs, GoodChar c) : ∀ c ∈ padLeft w fill cs, GoodChar c := by
  intro c hc
  unfold padLeft at hc
  rcases List.mem_append.mp hc with hc | hc
  · rw [List.eq_of_mem_replicate hc]
    exact hf
  · exact h c hc

/-- Length of left padding. -/
theorem padLeft_length (w fill : Nat) (cs : List Nat) :
    (padLeft w fill cs).length = (w - cs.length) + cs.length := by
  simp [padLeft]

/-- The decimal representation of an integer in [-9, 99] is one or two
characters wide. -/
theorem intRepr_length_le (i : Int) (h1 : -9 ≤ i) (h2 : i ≤ 99) :
    1 ≤ (intRepr i).length ∧ (intRepr i).length ≤ 2 := by
  unfold intRepr
  by_cases hi : i < 0
  · rw [if_pos hi]
    have ht : (-i).toNat < 10 := by omega
    rw [natDigits_small ht]
    simp
  · rw [if_neg hi]
    by_cases hsmall : i.toNat < 10
    · rw [natDigits_small hsmall]
      simp
    · have h10 : 10 ≤ i.toNat := by omega
      rw [natDigits_step h10,
        natDigits_small (by omega : i.toNat / 10 < 10)]
      simp

/-! Claim theorems. -/

/-- Claim C1 (code bug witness): at digit count 4 and value 65536
(0x10000), `hex` masks with `(1 << 8*4) - 1` (32 bits, not the
digit-count×4 = 16 bits the claim states), formats the unmasked 65536 as
the five-character string 10000, and writes five segment bytes to a
four-digit display — contradicting the claim and the docstring
`up to max digits`.  Under the claimed 16-bit mask the output would be
the four bytes of 0000. -/
theorem claim_c1_hex_failing_input :
    hexOp 4 65536 = .ok [([0x06, 0x3F, 0x3F, 0x3F, 0x3F], 0)] ∧
    ([0x06, 0x3F, 0x3F, 0x3F, 0x3F] : List Nat).length = 5 := by
  refine ⟨?_, rfl⟩
  have hmask : (65536 : Int).emod ((2 : Int) ^ (8 * 4)) = 65536 :=
    Int.emod_eq_of_lt (by norm_num) (by norm_num)
  have hdig : natHexDigits 65536 = [49, 48, 48, 48, 48] := by
    rw [natHexDigits_step (by norm_num)]
    norm_num
    rw [natHexDigits_step (by norm_num)]
    norm_num
    rw [natHexDigits_step (by norm_num)]
    norm_num
    rw [natHexDigits_step (by norm_num)]
    norm_num
    rw [natHexDigits_small (by norm_num)]
    rfl
  simp only [hexOp, hmask]
  rw [show ((65536 : Int).toNat) = 65536 from rfl, hdig]
  rfl

/-- Claim C2 counterexample: on the input consisting of a single dot, the
decimal-variant encoder does not succeed with the empty output (as the
claim states); it raises the character-out-of-range error for the dot
(ordinal 46). -/
theorem claim_c2_counterexample :
    encode_string_dec [46] = .error (Err.charOutOfRange 46) := rfl

/-- Claim C2 (amended): for every input string beginning with a dot that
has no preceding real character, `TM1637Decimal.encode_string` raises the
character-out-of-range error for the dot (ordinal 46) — the leading dot
is rejected by `encode_char`, not silently ignored. -/
theorem claim_c2_leading_dot (rest : List Nat) :
    encode_string_dec (46 :: rest) = .error (Err.charOutOfRange 46) := rfl

/-- Claim C3: `write(segments, pos)` with `pos < 0` or `pos ≥ digits`
raises the out-of-range error before any bus transmission: the GPIO
event trace is empty on the error path. -/
theorem claim_c3_write_invalid_pos (d br : Nat) (segments : List Nat)
    (pos : Int) (h : pos < 0 ∨ (d : Int) ≤ pos) :
    write d br segments pos = ([], some Err.posOutOfRange) := by
  unfold write
  rw [if_neg (by omega)]

/-- Claim C3 witness at digits = 4, position 4. -/
theorem claim_c3_witness :
    write 4 7 [1, 2, 3] 4 = ([], some Err.posOutOfRange) :=
  claim_c3_write_invalid_pos 4 7 [1, 2, 3] 4 (Or.inr (by decide))

set_option maxHeartbeats 1600000 in
/-- Claim C4: `_write_byte(b)` clocks out the 8 bits of `b` LSB first —
for each bit index `i` in order, data line to bit `i`, delay, clock high,
delay, clock low, delay — and then performs exactly one additional
acknowledgment clock pulse (low, wait, high, wait, low, wait).  The event
type has no read event: the data line is never read. -/
theorem claim_c4_write_byte (b : Nat) :
    writeByteTrace b =
      [.dio ((b >>> 0) &&& 1), .sleep, .clk 1, .sleep, .clk 0, .sleep,
       .dio ((b >>> 1) &&& 1), .sleep, .clk 1, .sleep, .clk 0, .sleep,
       .dio ((b >>> 2) &&& 1), .sleep, .clk 1, .sleep, .clk 0, .sleep,
       .dio ((b >>> 3) &&& 1), .sleep, .clk 1, .sleep, .clk 0, .sleep,
       .dio ((b >>> 4) &&& 1), .sleep, .clk 1, .sleep, .clk 0, .sleep,
       .dio ((b >>> 5) &&& 1), .sleep, .clk 1, .sleep, .clk 0, .sleep,
       .dio ((b >>> 6) &&& 1), .sleep, .clk 1, .sleep, .clk 0, .sleep,
       .dio ((b >>> 7) &&& 1), .sleep, .clk 1, .sleep, .clk 0, .sleep,
       .clk 0, .sleep, .clk 1, .sleep, .clk 0, .sleep] := rfl

/-- Claim C5: `encode_char` maps exactly its recognized domain — digits
to table indices 0-9, letters to 10-35 case-insensitively, space to 36,
dash to 37, star to 38 — and every other ordinal to the out-of-range
error carrying that ordinal (the source message also prints `chr o`,
which is determined by the ordinal). -/
theorem claim_c5_encode_char (o : Nat) :
    (48 ≤ o → o ≤ 57 → encode_char o = .ok (seg (o - 48)) ∧ o - 48 ≤ 9) ∧
    (65 ≤ o → o ≤ 90 →
      encode_char o = .ok (seg (o - 55)) ∧ 10 ≤ o - 55 ∧ o - 55 ≤ 35 ∧
      encode_char (o + 32) = .ok (seg (o - 55))) ∧
    (97 ≤ o → o ≤ 122 →
      encode_char o = .ok (seg (o - 87)) ∧ 10 ≤ o - 87 ∧ o - 87 ≤ 35) ∧
    encode_char 32 = .ok (seg 36) ∧
    encode_char 45 = .ok (seg 37) ∧
    encode_char 42 = .ok (seg 38) ∧
    (¬(o = 32 ∨ o = 42 ∨ o = 45 ∨ (65 ≤ o ∧ o ≤ 90) ∨ (97 ≤ o ∧ o ≤ 122) ∨
        (48 ≤ o ∧ o ≤ 57)) →
      encode_char o = .error (.charOutOfRange o)) := by
  refine ⟨fun h1 h2 => ⟨?_, by omega⟩,
          fun h1 h2 => ⟨?_, by omega, by omega, ?_⟩,
          fun h1 h2 => ⟨?_, by omega, by omega⟩, rfl, rfl, rfl, fun h => ?_⟩
  · unfold encode_char
    rw [if_neg (by omega), if_neg (by omega), if_neg (by omega),
        if_neg (by omega), if_neg (by omega), if_pos ⟨h1, h2⟩]
  · unfold encode_char
    rw [if_neg (by omega), if_neg (by omega), if_neg (by omega),
        if_pos ⟨h1, h2⟩]
  · unfold encode_char
    rw [if_neg (by omega), if_neg (by omega), if_neg (by omega),
        if_neg (by omega),
        if_pos (⟨by omega, by omega⟩ : 97 ≤ o + 32 ∧ o + 32 ≤ 122)]
    have e : o + 32 - 87 = o - 55 := by omega
    rw [e]
  · unfold encode_char
    rw [if_neg (by omega), if_neg (by omega), if_neg (by omega),
        if_neg (by omega), if_pos ⟨h1, h2⟩]
  · unfold encode_char
    rw [if_neg (by omega), if_neg (by omega), if_neg (by omega),
        if_neg (by omega), if_neg (by omega), if_neg (by omega)]

/-- Claim C5 witness at the letter A (ordinal 65). -/
theorem claim_c5_witness :
    encode_char 65 = .ok (seg (65 - 55)) ∧ 10 ≤ 65 - 55 ∧ 65 - 55 ≤ 35 ∧
    encode_char (65 + 32) = .ok (seg (65 - 55)) :=
  (claim_c5_encode_char 65).2.1 (by decide) (by decide)

/-- Claim C7: on success the plain encoder output has the input's
length; the decimal-variant output has the input's length minus the
number of dots; and an embedded dot consumes no output slot of its own —
it ORs 0x80 into the output byte immediately preceding it (the last byte
produced from the prefix before the dot), the rest of the output being
that of the same string without this dot. -/
theorem claim_c7_encode_lengths (s : List Nat) :
    (∀ out, encode_string s = .ok out → out.length = s.length) ∧
    (∀ out, encode_string_dec s = .ok out →
      out.length = s.length - s.count 46) ∧
    (∀ v outU, encode_string_dec s = .ok outU → outU ≠ [] →
      encode_string_dec (s ++ 46 :: v) =
        (encode_string_dec (s ++ v)).map
          (fun out => orAt out (outU.length - 1))) := by
  refine ⟨fun out h => encode_string_length s out h,
          fun out h => ?_, fun v outU h hne => ?_⟩
  · have h2 := encodeDecAux_length s [] out h
    have h3 := List.count_le_length 46 s
    simp only [List.length_nil] at h2
    omega
  · have hpos : 0 < outU.length := List.length_pos.mpr hne
    unfold encode_string_dec at h ⊢
    rw [encodeDecAux_append s [] (46 :: v), encodeDecAux_append s [] v, h]
    show encodeDecAux outU (46 :: v) =
      (encodeDecAux outU v).map (fun out => orAt out (outU.length - 1))
    rw [encodeDecAux_cons, if_pos ⟨rfl, hpos⟩]
    exact encodeDecAux_orAt v outU (outU.length - 1) (by omega)

/-- Claim C7 witness: the string 12 encodes to two plain segments, the
string 1.2 encodes to two decimal-variant segments (dot absorbed into
the first byte), and inserting the dot into 12 ORs 0x80 into the byte
preceding it. -/
theorem claim_c7_witness :
    ([0x06, 0x5B] : List Nat).length = ([49, 50] : List Nat).length ∧
    ([0x86, 0x5B] : List Nat).length =
      ([49, 46, 50] : List Nat).length -
        ([49, 46, 50] : List Nat).count 46 ∧
    encode_string_dec ([49] ++ 46 :: [50]) =
      (encode_string_dec ([49] ++ [50])).map
        (fun out => orAt out (([0x06] : List Nat).length - 1)) :=
  ⟨(claim_c7_encode_lengths [49, 50]).1 [0x06, 0x5B] rfl,
   (claim_c7_encode_lengths [49, 46, 50]).2.1 [0x86, 0x5B] rfl,
   (claim_c7_encode_lengths [49]).2.2 [50] [0x06] rfl (by simp)⟩

/-- Claim C8: for an encodable input of length n, scroll performs
exactly n + digits + 1 successive writes, each of a window of exactly
`digits` segment bytes sliding one step at a time over the input padded
with `digits` blanks on each side; the first and last windows are fully
blank. -/
theorem claim_c8_scroll (d : Nat) (s segs : List Nat) (hd : 1 ≤ d)
    (henc : encode_string s = .ok segs) :
    scroll d s =
      .ok ((scrollWindows d segs).map (fun w => (w, (0 : Int)))) ∧
    (scrollWindows d segs).length = segs.length + d + 1 ∧
    (∀ w ∈ scrollWindows d segs, w.length = d) ∧
    (scrollWindows d segs)[0]? = some (List.replicate d 0) ∧
    (scrollWindows d segs)[segs.length + d]? =
      some (List.replicate d 0) := by
  refine ⟨?_, ?_, ?_, ?_, ?_⟩
  · unfold scroll
    rw [henc]
    exact callAll_ok d hd _
  · simp [scrollWindows]
  · intro w hw
    unfold scrollWindows at hw
    simp only [List.mem_map, List.mem_range] at hw
    obtain ⟨i, hi, rfl⟩ := hw
    simp only [List.length_take, List.length_drop, List.length_append,
      List.length_replicate]
    omega
  · unfold scrollWindows
    have h0 : (List.range (segs.length + d + 1))[0]? = some 0 :=
      List.getElem?_range (by omega)
    simp only [List.getElem?_map, h0, Option.map_some']
    rw [List.drop_zero, List.append_assoc,
      List.take_left' (List.length_replicate d 0)]
  · unfold scrollWindows
    have h0 : (List.range (segs.length + d + 1))[segs.length + d]? =
        some (segs.length + d) := List.getElem?_range (by omega)
    simp only [List.getElem?_map, h0, Option.map_some']
    rw [List.drop_left'
      (show (List.replicate d (0 : Nat) ++ segs).length = segs.length + d by
        simp [List.length_append, List.length_replicate]
        omega)]
    rw [List.take_replicate]
    simp

/-- Claim C8 witness: scrolling the string AB on a 4-digit display. -/
theorem claim_c8_witness :
    scroll 4 [65, 66] =
      .ok ((scrollWindows 4 [0x77, 0x7C]).map (fun w => (w, (0 : Int)))) ∧
    (scrollWindows 4 [0x77, 0x7C])[0]? = some (List.replicate 4 0) :=
  ⟨(claim_c8_scroll 4 [65, 66] [0x77, 0x7C] (by decide) rfl).1,
   (claim_c8_scroll 4 [65, 66] [0x77, 0x7C] (by decide) rfl).2.2.2.1⟩

/-- Claim C6: brightness values 0-7 succeed and update the stored
brightness; any other value fails with the configuration error and
leaves the stored brightness (and digit count) unchanged. -/
theorem claim_c6_brightness (s : TMState) (val : Int) :
    (0 ≤ val → val ≤ 7 →
      brightness_set s val = ({ s with brightness := val }, none)) ∧
    (val < 0 ∨ 7 < val →
      brightness_set s val = (s, some Err.brightnessOutOfRange)) := by
  constructor
  · intro h1 h2
    unfold brightness_set
    rw [if_pos ⟨h1, h2⟩]
  · intro h
    unfold brightness_set
    rw [if_neg (by omega)]

/-- Claim C6 witness: setting 3 succeeds, setting 9 fails and keeps the
stored value 7. -/
theorem claim_c6_witness :
    brightness_set ⟨7, 4⟩ 3 = (⟨3, 4⟩, none) ∧
    brightness_set ⟨7, 4⟩ 9 = (⟨7, 4⟩, some Err.brightnessOutOfRange) :=
  ⟨(claim_c6_brightness ⟨7, 4⟩ 3).1 (by decide) (by decide),
   (claim_c6_brightness ⟨7, 4⟩ 9).2 (by decide)⟩

/-- Claim C9: `temperature` shows the literal lo below the representable
low bound and hi above the high bound — for digit count 4 exactly at
value ≤ -10 and value ≥ 100, the values whose decimal form is wider than
2 columns — otherwise writes the value right-aligned in digits − 2
columns; and in every successful case the last write is the degree glyph
(table index 38, byte 0x63) followed by the letter-C glyph (index 12,
byte 0x39) at the last two digit positions. -/
theorem claim_c9_temperature (d : Nat) (num : Int) (hd : 3 ≤ d) :
    (num ≤ -10 → temperature 4 num =
      .ok [([0x38, 0x3F], 0), ([0x63, 0x39], 2)]) ∧
    (100 ≤ num → temperature 4 num =
      .ok [([0x76, 0x06], 0), ([0x63, 0x39], 2)]) ∧
    (-9 ≤ num → num ≤ 99 → ∃ segs,
      encode_string (padLeft (4 - 2) 32 (intRepr num)) = .ok segs ∧
      temperature 4 num = .ok [(segs, 0), ([0x63, 0x39], 2)]) ∧
    (∀ res, temperature d num = .ok res →
      res.getLast? = some ([0x63, 0x39], (d : Int) - 2)) := by
  have hp1 : ((10 : Int) ^ (4 - 3)) = 10 := by norm_num
  have hp2 : ((10 : Int) ^ (4 - 2)) = 100 := by norm_num
  refine ⟨fun h => ?_, fun h => ?_, fun h1 h2 => ?_, fun res hres => ?_⟩
  · unfold temperature
    rw [if_pos (by rw [hp1]; omega)]
    rfl
  · unfold temperature
    rw [if_neg (by rw [hp1]; omega), if_pos (by rw [hp2]; omega)]
    rfl
  · obtain ⟨segs, hsegs⟩ := encode_string_ok_of_good _
      (padLeft_good (4 - 2) 32 (intRepr num) (by unfold GoodChar; omega)
        (fun c hc => intRepr_good num c hc))
    refine ⟨segs, hsegs, ?_⟩
    unfold temperature
    rw [if_neg (by rw [hp1]; omega), if_neg (by rw [hp2]; omega), hsegs]
    simp only [ebind_ok]
    rw [callWrite_ok 4 segs (by omega)]
    simp only [ebind_ok]
    rfl
  · obtain ⟨cs, hcs, hrest⟩ := ebind_eq_ok hres
    obtain ⟨c2, hc2, hok⟩ := ebind_eq_ok hrest
    have hdeg : callWrite d [seg 38, seg 12] ((d : Int) - 2) =
        .ok ([seg 38, seg 12], (d : Int) - 2) := by
      unfold callWrite
      rw [if_pos ⟨by omega, by omega⟩]
    rw [hdeg] at hc2
    cases hc2
    have hok2 : Except.ok (cs ++ [([seg 38, seg 12], (d : Int) - 2)]) =
        Except.ok res := hok
    cases hok2
    rw [List.getLast?_concat]
    rfl

/-- Claim C9 witness at digit count 4 and temperature 25. -/
theorem claim_c9_witness : ∃ segs,
    encode_string (padLeft (4 - 2) 32 (intRepr 25)) = .ok segs ∧
    temperature 4 25 = .ok [(segs, 0), ([0x63, 0x39], 2)] :=
  (claim_c9_temperature 4 25 (by decide)).2.2.1 (by decide) (by decide)

/-- Claim C10: `write` never validates the length of the segment
sequence: for every in-range position and every segment list, whatever
its length, the frame transmits every segment byte; and `hour_minute`
always writes exactly 4 segment bytes in one write at position 0, even
on a device with fewer than 4 digits. -/
theorem claim_c10_write_unchecked (d br : Nat) (pos : Int)
    (segments : List Nat) (h0 : 0 ≤ pos) (h1 : pos < (d : Int)) :
    writeFrame d br segments pos =
      .ok (TM1637_CMD1 :: (TM1637_CMD2 ||| pos.toNat) ::
        (segments ++ [TM1637_CMD3 ||| TM1637_DSP_ON ||| br])) ∧
    (∀ hour minute : Int, ∀ colon : Bool, 1 ≤ d →
      ∃ w, hour_minute d hour minute colon = .ok [(w, 0)] ∧
        w.length = 4) := by
  constructor
  · unfold writeFrame
    rw [if_pos ⟨h0, h1⟩]
  · intro hour minute colon hd1
    have g1 := padLeft_good 2 48 (intRepr (max (-9) (min hour 99)))
      (by unfold GoodChar; omega)
      (fun c hc => intRepr_good _ c hc)
    have g2 := padLeft_good 2 48 (intRepr (max (-9) (min minute 99)))
      (by unfold GoodChar; omega)
      (fun c hc => intRepr_good _ c hc)
    obtain ⟨segs0, hsegs0⟩ := encode_string_ok_of_good
      (padLeft 2 48 (intRepr (max (-9) (min hour 99))) ++
        padLeft 2 48 (intRepr (max (-9) (min minute 99))))
      (by
        intro c hc
        rcases List.mem_append.mp hc with hc | hc
        · exact g1 c hc
        · exact g2 c hc)
    have hlen : segs0.length = 4 := by
      have l1 := intRepr_length_le (max (-9) (min hour 99))
        (by omega) (by omega)
      have l2 := intRepr_length_le (max (-9) (min minute 99))
        (by omega) (by omega)
      have hl := encode_string_length _ _ hsegs0
      simp only [List.length_append, padLeft_length] at hl
      omega
    refine ⟨if colon then orAt segs0 1 else segs0, ?_, ?_⟩
    · unfold hour_minute
      rw [hsegs0]
      simp only [ebind_ok]
      rw [callWrite_ok d _ hd1]
      rfl
    · cases colon <;> simp [orAt_length, hlen]

/-- Claim C10 witness: a 5-byte segment list written at position 0 on a
2-digit device, and `hour_minute` writing 4 bytes on that device. -/
theorem claim_c10_witness :
    writeFrame 2 7 [1, 2, 3, 4, 5] 0 =
      .ok (TM1637_CMD1 :: (TM1637_CMD2 ||| (0 : Int).toNat) ::
        ([1, 2, 3, 4, 5] ++ [TM1637_CMD3 ||| TM1637_DSP_ON ||| 7])) ∧
    (∃ w, hour_minute 2 12 34 true = .ok [(w, 0)] ∧ w.length = 4) :=
  ⟨(claim_c10_write_unchecked 2 7 0 [1, 2, 3, 4, 5]
      (by decide) (by decide)).1,
   (claim_c10_write_unchecked 2 7 0 [1, 2, 3, 4, 5]
      (by decide) (by decide)).2 12 34 true (by decide)⟩

end TM1637
